import Mathlib

/-!
Verification of the `rust-worker` of secbyteX03/auto-screencap
(`src/rust-worker/src/main.rs`), a single-shot CLI that reads a JSON job
from stdin, applies optional resize/blur to an image file, saves the
result and reports a one-line JSON outcome.

Modelling conventions:
* Machine integers: `u32` values are `Nat` with explicit `< 2^32` bounds
  at the decoding boundary; `f32` blur sigmas are modelled as `ℚ` (the
  program only ever compares a sigma against `0.0`).
* Paths are `String`s over Unix separators; the `std::path` operations
  used by the source (`file_stem`, `extension`, `set_file_name`, and the
  `parent`-truncation performed by `PathBuf::pop`) are embedded as
  executable functions on `List Char`.  `OsStr::to_str` always succeeds
  in this model (strings are valid UTF-8), so the `unwrap_or` defaults
  fire exactly when the corresponding path component does not exist.
* Filesystem and codec effects (`image::open`, `DynamicImage::save`) are
  an environment of oracles returning `Except`; the image itself is a
  trace of the transformation pipeline applied to the bytes at the input
  path, with dimensions interpreted against the source dimensions.
* `anyhow` errors carry a context string and an underlying cause string;
  `Display` without the alternate flag (what `format!("...: {}", e)`
  uses) prints only the outermost context, which the model reflects in
  `AnyhowError.display`.
* serde: the derived `Deserialize` for `ProcessRequest` is embedded over
  a JSON value type (field-order iteration, duplicate known fields
  rejected, unknown fields ignored, `Option` fields defaulting to `none`
  when missing or `null`).  The purely syntactic text-to-JSON phase of
  `serde_json::from_str` is an oracle parameter of `mainRun`; error
  message texts of the decoder are representative, not byte-exact.
-/

namespace Screencap

/-- `image::imageops::FilterType` (the source only uses `Lanczos3`,
`main.rs` line 53). -/
inductive FilterType where
  | Nearest
  | Triangle
  | CatmullRom
  | Gaussian
  | Lanczos3
deriving DecidableEq

/-- An image value: the bytes loaded from a path by `image::open`
(line 45), possibly transformed by `resize_exact` (line 50) and
`imageops::blur` (line 59).  The constructors record the exact pipeline
applied, in application order. -/
inductive Img where
  | source (path : String)
  | resizeExact (w h : Nat) (filter : FilterType) (img : Img)
  | blurred (sigma : ℚ) (img : Img)
deriving DecidableEq

/-- Pixel dimensions of an image, given the dimensions of the source
file at each path.  `resize_exact` yields exactly the requested
dimensions (image crate documentation: it does not preserve aspect
ratio); `blur` preserves dimensions. -/
def Img.dims (srcDims : String → Nat × Nat) : Img → Nat × Nat
  | .source p => srcDims p
  | .resizeExact w h _ _ => (w, h)
  | .blurred _ i => i.dims srcDims

/-- `struct ProcessRequest` (main.rs lines 7-17).  `resize` is a pair of
`u32` (modelled as `Nat`, bounded at the decoding boundary), `blur_sigma`
an `f32` (modelled as `ℚ`). -/
structure ProcessRequest where
  path : String
  blur_sigma : Option ℚ
  resize : Option (Nat × Nat)
  out_path : Option String
deriving DecidableEq

/-- `struct ProcessResponse` (main.rs lines 19-24). -/
structure ProcessResponse where
  ok : Bool
  out_path : String
  msg : String
deriving DecidableEq

/-! ### Rust `std::path` string semantics (Unix)

The source manipulates the output path with `PathBuf::file_stem`,
`PathBuf::extension` and `PathBuf::set_file_name` (main.rs lines 32-40).
These are embedded on `List Char` following the documented `std::path`
behaviour: components are chunks between `/` separators; empty chunks
and `.` chunks (other than a leading lone `.`) are not components; the
file name is the last component when it is a normal component; `pop`
truncates to the `parent` prefix of the path string. -/

/-- Split a character list at every `/`, keeping empty chunks (so that
the chunk structure remembers where separators were). -/
def splitChunks : List Char → List (List Char)
  | [] => [[]]
  | c :: rest =>
    if c = '/' then [] :: splitChunks rest
    else
      match splitChunks rest with
      | [] => [[c]]
      | s :: ss => (c :: s) :: ss

/-- Rebuild a path from chunks, interposing one `/` between chunks. -/
def joinChunks : List (List Char) → List Char
  | [] => []
  | [c] => c
  | c :: rest => c ++ '/' :: joinChunks rest

/-- Working on the reversed chunk list: drop trailing chunks that do not
form components — empty chunks (repeated or trailing separators) and `.`
chunks, except a lone leading `.` which is the `CurDir` component. -/
def trimBackRev : List (List Char) → List (List Char)
  | [] => []
  | c :: rest =>
    if c = [] ∨ (c = ['.'] ∧ rest ≠ []) then trimBackRev rest
    else c :: rest

/-- The maximal leading run of separators (the root prefix of an
absolute path; `[]` for a relative path). -/
def rootRun (l : List Char) : List Char := l.takeWhile (fun c => c = '/')

/-- `Path::file_name` on Unix: the final normal component; `none` when
the path is empty, ends in a root, or its final component is `..` or a
bare `.`. -/
def fileNameL (l : List Char) : Option (List Char) :=
  match trimBackRev (splitChunks l).reverse with
  | [] => none
  | c :: _ => if c = ['.'] ∨ c = ['.', '.'] then none else some c

/-- `Path::parent` as the prefix string that `PathBuf::pop` truncates
to: drop the final component, then trailing separators and `.` chunks;
a root-only remainder keeps the leading separator run. -/
def parentL (l : List Char) : Option (List Char) :=
  match trimBackRev (splitChunks l).reverse with
  | [] => none
  | _ :: rest =>
    match trimBackRev rest with
    | [] => some (rootRun l)
    | c :: cs => some (joinChunks (c :: cs).reverse)

/-- Split a file name at its last dot: `some (before, after)` when a dot
exists, with the dot removed. -/
def lastDotSplit : List Char → Option (List Char × List Char)
  | [] => none
  | c :: rest =>
    match lastDotSplit rest with
    | some (b, a) => some (c :: b, a)
    | none => if c = '.' then some ([], rest) else none

/-- The stem of a file name (`std::path::Path::file_stem` on the file
name): the whole name when there is no dot or the only dot is leading;
otherwise the part before the final dot.  `..` is never a file name but
the split special-cases it, mirroring `rsplit_file_at_dot`. -/
def stemOfName (n : List Char) : List Char :=
  if n = ['.', '.'] then n
  else
    match lastDotSplit n with
    | none => n
    | some ([], _) => n
    | some (b, _) => b

/-- The extension of a file name: the part after the final dot, absent
when there is no dot or the only dot is leading. -/
def extOfName (n : List Char) : Option (List Char) :=
  if n = ['.', '.'] then none
  else
    match lastDotSplit n with
    | none => none
    | some ([], _) => none
    | some (_, a) => some a

/-- `Path::file_stem` (main.rs line 33). -/
def fileStemL (l : List Char) : Option (List Char) :=
  (fileNameL l).map stemOfName

/-- `Path::extension` (main.rs line 36). -/
def extensionL (l : List Char) : Option (List Char) :=
  (fileNameL l).bind extOfName

/-- `PathBuf::push` of a file name: an absolute argument replaces the
path; otherwise a separator is interposed unless the buffer is empty or
already ends with a separator. -/
def pushNameL (p n : List Char) : List Char :=
  if n.head? = some '/' then n
  else if p = [] then n
  else if p.getLast? = some '/' then p ++ n
  else p ++ '/' :: n

/-- `PathBuf::set_file_name` (main.rs line 39): pop the file name when
one exists (truncating to the parent prefix), then push the new name. -/
def setFileNameL (l n : List Char) : List Char :=
  match fileNameL l with
  | some _ =>
    match parentL l with
    | some par => pushNameL par n
    | none => pushNameL l n
  | none => pushNameL l n

/-- The derived output file name `"{stem}_processed.{ext}"` with the
defaults of main.rs lines 33-39: stem defaults to `"screenshot"`, the
extension to `"png"`. -/
def processedNameL (l : List Char) : List Char :=
  ((fileStemL l).getD "screenshot".data) ++ "_processed.".data ++
    ((extensionL l).getD "png".data)

/-- Output path resolution (main.rs lines 29-42): an explicit `out_path`
is used verbatim; otherwise the input path with its file name replaced
by `"{stem}_processed.{ext}"`. -/
def resolveOutPath (req : ProcessRequest) : String :=
  match req.out_path with
  | some p => p
  | none => String.mk (setFileNameL req.path.data (processedNameL req.path.data))

/-! ### The transformation pipeline (main.rs lines 44-61) -/

/-- The resize step (main.rs lines 49-55): applied exactly when `resize`
is present, with `resize_exact` and the `Lanczos3` filter, performing no
validation of the requested dimensions. -/
def resizeStep (req : ProcessRequest) (img : Img) : Img :=
  match req.resize with
  | some (w, h) => Img.resizeExact w h FilterType.Lanczos3 img
  | none => img

/-- The blur step (main.rs lines 57-61): applied exactly when
`blur_sigma` is present and strictly positive; otherwise the image
passes through unchanged and no error is raised. -/
def blurStep (req : ProcessRequest) (img : Img) : Img :=
  match req.blur_sigma with
  | some sigma => if 0 < sigma then Img.blurred sigma img else img
  | none => img

/-- The image handed to `save` (main.rs line 64): the loaded source,
resized first, blurred second. -/
def finalImg (req : ProcessRequest) : Img :=
  blurStep req (resizeStep req (Img.source req.path))

/-- An `anyhow` error produced by `with_context`: the context message
plus the underlying cause.  `Display` without the alternate flag prints
only the outermost context. -/
structure AnyhowError where
  context : String
  cause : String
deriving DecidableEq

/-- `format!("{}", err)` on an `anyhow::Error` built by `with_context`:
the context text only; the cause chain is not printed. -/
def AnyhowError.display (e : AnyhowError) : String := e.context

/-- The effectful environment: `image::open` on a path either succeeds
or fails with a cause text; `save` of an image to a path likewise. -/
structure Env where
  openOk : String → Except String Unit
  saveOk : Img → String → Except String Unit

/-- `process_image` (main.rs lines 26-72): resolve the output path, open
the input (context `"Failed to open image: {path}"`, line 46), apply
resize then blur, save (context `"Failed to save image: {path}"`,
line 65), and on success answer
`{ok: true, out_path, msg: "Image processed successfully"}`. -/
def processImage (env : Env) (req : ProcessRequest) : Except AnyhowError ProcessResponse :=
  match env.openOk req.path with
  | Except.error cause =>
    Except.error ⟨"Failed to open image: " ++ req.path, cause⟩
  | Except.ok _ =>
    match env.saveOk (finalImg req) (resolveOutPath req) with
    | Except.error cause =>
      Except.error ⟨"Failed to save image: " ++ resolveOutPath req, cause⟩
    | Except.ok _ =>
      Except.ok ⟨true, resolveOutPath req, "Image processed successfully"⟩

/-- The file written by a run: present exactly when `process_image`
succeeded, in which case it holds the transformed image content and the
resolved output path. -/
def savedFile (env : Env) (req : ProcessRequest) : Option (Img × String) :=
  match processImage env req with
  | Except.ok _ => some (finalImg req, resolveOutPath req)
  | Except.error _ => none

/-! ### serde JSON decoding (main.rs lines 7-17 and 95) -/

/-- JSON values; numbers are modelled as rationals (integers have
denominator 1). -/
inductive Json where
  | null
  | bool (b : Bool)
  | num (q : ℚ)
  | str (s : String)
  | arr (xs : List Json)
  | obj (fields : List (String × Json))

/-- serde_json deserialization of a `u32`: a non-negative integral
number below `2^32`. -/
def decodeU32 (j : Json) : Except String Nat :=
  match j with
  | Json.num q =>
    if q.den = 1 ∧ 0 ≤ q.num ∧ q.num < 4294967296 then Except.ok q.num.toNat
    else Except.error "invalid value for u32"
  | _ => Except.error "invalid type for u32"

/-- Decoding of `Option<f32>`: `null` is `None`; any number is accepted
(serde_json converts numbers to `f32` lossily). -/
def decodeSigma (j : Json) : Except String (Option ℚ) :=
  match j with
  | Json.null => Except.ok none
  | Json.num q => Except.ok (some q)
  | _ => Except.error "invalid type for blur_sigma"

/-- Decoding of `Option<(u32, u32)>`: `null` is `None`; otherwise an
array of exactly two `u32`s. -/
def decodeResize (j : Json) : Except String (Option (Nat × Nat)) :=
  match j with
  | Json.null => Except.ok none
  | Json.arr [x, y] =>
    match decodeU32 x, decodeU32 y with
    | Except.ok w, Except.ok h => Except.ok (some (w, h))
    | Except.error e, _ => Except.error e
    | _, Except.error e => Except.error e
  | Json.arr _ => Except.error "invalid length for resize"
  | _ => Except.error "invalid type for resize"

/-- Decoding of `Option<String>`. -/
def decodeOptString (j : Json) : Except String (Option String) :=
  match j with
  | Json.null => Except.ok none
  | Json.str s => Except.ok (some s)
  | _ => Except.error "invalid type for out_path"

/-- Accumulator of the derived `Deserialize` map visitor: which fields
have been seen, and their decoded values. -/
structure RawReq where
  path? : Option String
  blur? : Option (Option ℚ)
  resize? : Option (Option (Nat × Nat))
  out? : Option (Option String)
deriving DecidableEq

/-- The names the derived deserializer recognises. -/
def knownField (k : String) : Bool :=
  decide (k = "path") || decide (k = "blur_sigma") ||
    decide (k = "resize") || decide (k = "out_path")

/-- One step of the derived map visitor: a known field is decoded
(rejecting duplicates); an unknown field is ignored. -/
def decodeField (acc : RawReq) (k : String) (v : Json) : Except String RawReq :=
  if k = "path" then
    match acc.path? with
    | some _ => Except.error "duplicate field path"
    | none =>
      match v with
      | Json.str s => Except.ok ⟨some s, acc.blur?, acc.resize?, acc.out?⟩
      | _ => Except.error "invalid type for path"
  else if k = "blur_sigma" then
    match acc.blur? with
    | some _ => Except.error "duplicate field blur_sigma"
    | none =>
      match decodeSigma v with
      | Except.ok r => Except.ok ⟨acc.path?, some r, acc.resize?, acc.out?⟩
      | Except.error e => Except.error e
  else if k = "resize" then
    match acc.resize? with
    | some _ => Except.error "duplicate field resize"
    | none =>
      match decodeResize v with
      | Except.ok r => Except.ok ⟨acc.path?, acc.blur?, some r, acc.out?⟩
      | Except.error e => Except.error e
  else if k = "out_path" then
    match acc.out? with
    | some _ => Except.error "duplicate field out_path"
    | none =>
      match decodeOptString v with
      | Except.ok r => Except.ok ⟨acc.path?, acc.blur?, acc.resize?, some r⟩
      | Except.error e => Except.error e
  else Except.ok acc

/-- Fold the visitor over the object's fields in order. -/
def decodeFields (acc : RawReq) : List (String × Json) → Except String RawReq
  | [] => Except.ok acc
  | (k, v) :: rest =>
    match decodeField acc k v with
    | Except.ok acc₂ => decodeFields acc₂ rest
    | Except.error e => Except.error e

/-- The derived `Deserialize` for `ProcessRequest`: a JSON object whose
fields decode without error, with `path` required and the `Option`
fields defaulting to `None` when absent. -/
def decodeProcessRequest (j : Json) : Except String ProcessRequest :=
  match j with
  | Json.obj fields =>
    match decodeFields ⟨none, none, none, none⟩ fields with
    | Except.error e => Except.error e
    | Except.ok acc =>
      match acc.path? with
      | none => Except.error "missing field path"
      | some p =>
        Except.ok ⟨p, acc.blur?.getD none, acc.resize?.getD none, acc.out?.getD none⟩
  | _ => Except.error "invalid type: expected a JSON object"

/-- `serde_json::from_str` for `ProcessRequest`: the syntactic parse
(an oracle, since the JSON text grammar is external to the source)
followed by the typed decode. -/
def fromStr (parse : String → Except String Json) (s : String) :
    Except String ProcessRequest :=
  (parse s).bind decodeProcessRequest

/-! ### `main` (main.rs lines 74-124) -/

/-- The observable outcome of one invocation: each entry of `emitted` is
one `println!` of a serialized response (serde_json string output never
contains a raw newline, so each is exactly one stdout line), and the
single `std::process::exit` code. -/
structure MainOutput where
  emitted : List ProcessResponse
  exitCode : Nat
deriving DecidableEq

/-- `main` (main.rs lines 74-124), after the logger setup: read stdin
(failure: lines 84-92), parse the request (failure: lines 95-106), run
`process_image` (lines 109-123); every branch prints exactly one
response and exits. -/
def mainRun (env : Env) (parse : String → Except String Json)
    (stdinRes : Except String String) : MainOutput :=
  match stdinRes with
  | Except.error e => ⟨[⟨false, "", "Failed to read stdin: " ++ e⟩], 1⟩
  | Except.ok input =>
    match fromStr parse input with
    | Except.error e => ⟨[⟨false, "", "Invalid request: " ++ e⟩], 1⟩
    | Except.ok req =>
      match processImage env req with
      | Except.ok resp => ⟨[resp], 0⟩
      | Except.error err =>
        ⟨[⟨false, "", "Processing failed: " ++ err.display⟩], 1⟩

/-- Boolean contiguous-substring test, used to state what a message does
or does not contain. -/
def containsSub (needle : List Char) : List Char → Bool
  | [] => needle.isPrefixOf []
  | c :: t => needle.isPrefixOf (c :: t) || containsSub needle t

/-! ### Concrete material shared by witnesses -/

/-- An environment in which every open and every save succeeds. -/
def envAllOk : Env := ⟨fun _ => Except.ok (), fun _ _ => Except.ok ()⟩

/-- An environment in which opening any image fails with an OS cause. -/
def envOpenFail : Env :=
  ⟨fun _ => Except.error "No such file or directory (os error 2)", fun _ _ => Except.ok ()⟩

/-- An environment that succeeds only at the points the witnesses use. -/
def envB : Env :=
  ⟨fun p => if p = "in.png" then Except.ok () else Except.error "missing",
   fun _ pth => if pth = "" then Except.error "unwritable" else Except.ok ()⟩

/-- A syntactic-parse oracle producing a minimal request for `in.png`. -/
def parseIn : String → Except String Json :=
  fun _ => Except.ok (Json.obj [("path", Json.str "in.png")])

/-- A syntactic-parse oracle producing a request for `/tmp/in.png`. -/
def parseTmp : String → Except String Json :=
  fun _ => Except.ok (Json.obj [("path", Json.str "/tmp/in.png")])

/-- The minimal request for `in.png`. -/
def reqIn : ProcessRequest := ⟨"in.png", none, none, none⟩

/-! ### Auxiliary lemmas -/

theorem data_append (a b : String) : (a ++ b).data = a.data ++ b.data := by
  cases a; cases b; rfl

theorem isPrefixOf_self (l : List Char) : l.isPrefixOf l = true := by
  induction l with
  | nil => rfl
  | cons c t ih => simp [List.isPrefixOf, ih]

theorem containsSub_append_self (pre x : List Char) : containsSub x (pre ++ x) = true := by
  induction pre with
  | nil =>
    cases x with
    | nil => rfl
    | cons c t => simp [containsSub, isPrefixOf_self]
  | cons a pre ih => simp [containsSub, ih]

/-! ### C4: resize semantics -/

/-- C4: for every request with `resize = (W, H)` present, the loaded
image is resized with `resize_exact` and the `Lanczos3` filter before
any blur, unconditionally, and the image handed to `save` has exactly
dimensions `(W, H)` whatever the source dimensions were. -/
theorem resize_exact_before_blur (req : ProcessRequest) (W H : Nat)
    (h : req.resize = some (W, H)) :
    finalImg req
        = blurStep req (Img.resizeExact W H FilterType.Lanczos3 (Img.source req.path))
      ∧ ∀ srcDims : String → Nat × Nat, (finalImg req).dims srcDims = (W, H) := by
  have hr : resizeStep req (Img.source req.path)
      = Img.resizeExact W H FilterType.Lanczos3 (Img.source req.path) := by
    unfold resizeStep; rw [h]
  constructor
  · unfold finalImg; rw [hr]
  · intro srcDims
    unfold finalImg
    rw [hr]
    cases hb : req.blur_sigma with
    | none => simp [blurStep, hb, Img.dims]
    | some s =>
      by_cases hs : 0 < s
      · simp [blurStep, hb, hs, Img.dims]
      · simp [blurStep, hb, hs, Img.dims]

/-- Witness for C4 at the request of the repository's own test. -/
theorem resize_exact_before_blur_witness :
    finalImg ⟨"in.png", some 1, some (2, 2), none⟩
        = blurStep ⟨"in.png", some 1, some (2, 2), none⟩
            (Img.resizeExact 2 2 FilterType.Lanczos3 (Img.source "in.png"))
      ∧ (finalImg ⟨"in.png", some 1, some (2, 2), none⟩).dims (fun _ => (1, 1)) = (2, 2) := by
  have h := resize_exact_before_blur ⟨"in.png", some 1, some (2, 2), none⟩ 2 2 rfl
  exact ⟨h.1, h.2 (fun _ => (1, 1))⟩

/-! ### C5: blur semantics -/

/-- C5: the Gaussian blur is applied exactly when `blur_sigma` is
present and strictly positive; an absent or non-positive sigma leaves
the image unchanged (a silent no-op, never an error). -/
theorem blur_iff_positive_sigma (req : ProcessRequest) :
    (∀ sigma : ℚ, req.blur_sigma = some sigma → 0 < sigma →
        ∀ i : Img, blurStep req i = Img.blurred sigma i)
      ∧ ((req.blur_sigma = none ∨ ∃ sigma : ℚ, req.blur_sigma = some sigma ∧ sigma ≤ 0) →
        ∀ i : Img, blurStep req i = i) := by
  constructor
  · intro sigma hs hpos i
    simp [blurStep, hs, hpos]
  · intro h i
    rcases h with h | ⟨sigma, hs, hle⟩
    · simp [blurStep, h]
    · have : ¬ 0 < sigma := not_lt.mpr hle
      simp [blurStep, hs, this]

/-- Witness for C5: a positive sigma blurs, a negative sigma is a no-op. -/
theorem blur_iff_positive_sigma_witness :
    blurStep ⟨"a.png", some 1, none, none⟩ (Img.source "a.png")
        = Img.blurred 1 (Img.source "a.png")
      ∧ blurStep ⟨"a.png", some (-1), none, none⟩ (Img.source "a.png")
        = Img.source "a.png" :=
  ⟨(blur_iff_positive_sigma ⟨"a.png", some 1, none, none⟩).1 1 rfl (by norm_num) _,
   (blur_iff_positive_sigma ⟨"a.png", some (-1), none, none⟩).2
     (Or.inr ⟨-1, rfl, by norm_num⟩) _⟩

/-! ### C6: exactly one line, exactly one exit -/

/-- C6: every invocation, on every control-flow path, emits exactly one
response line and exits exactly once, with code `0` or `1`. -/
theorem one_line_one_exit (env : Env) (parse : String → Except String Json)
    (stdinRes : Except String String) :
    (mainRun env parse stdinRes).emitted.length = 1
      ∧ ((mainRun env parse stdinRes).exitCode = 0
          ∨ (mainRun env parse stdinRes).exitCode = 1) := by
  cases stdinRes with
  | error e => exact ⟨rfl, Or.inr rfl⟩
  | ok s =>
    cases hp : fromStr parse s with
    | error e => simp [mainRun, hp]
    | ok req =>
      cases hq : processImage env req with
      | ok resp => simp [mainRun, hp, hq]
      | error err => simp [mainRun, hp, hq]

/-! ### C2: failure and success outcomes -/

/-- C2: every failure (stdin read, request decode, or processing) emits
a response with `ok = false` and an empty `out_path` and exits with
code 1; every success exits with code 0. -/
theorem failure_success_responses (env : Env) (parse : String → Except String Json)
    (stdinRes : Except String String) :
    (∀ e, stdinRes = Except.error e →
        mainRun env parse stdinRes
          = ⟨[⟨false, "", "Failed to read stdin: " ++ e⟩], 1⟩)
      ∧ (∀ s e, stdinRes = Except.ok s → fromStr parse s = Except.error e →
        mainRun env parse stdinRes = ⟨[⟨false, "", "Invalid request: " ++ e⟩], 1⟩)
      ∧ (∀ s req err, stdinRes = Except.ok s → fromStr parse s = Except.ok req →
        processImage env req = Except.error err →
        mainRun env parse stdinRes
          = ⟨[⟨false, "", "Processing failed: " ++ err.display⟩], 1⟩)
      ∧ (∀ s req resp, stdinRes = Except.ok s → fromStr parse s = Except.ok req →
        processImage env req = Except.ok resp →
        mainRun env parse stdinRes = ⟨[resp], 0⟩) := by
  refine ⟨?_, ?_, ?_, ?_⟩
  · intro e he; subst he; rfl
  · intro s e hs hp; subst hs; simp [mainRun, hp]
  · intro s req err hs hp hq; subst hs; simp [mainRun, hp, hq, AnyhowError.display]
  · intro s req resp hs hp hq; subst hs; simp [mainRun, hp, hq]

/-- Witness for C2 at a concrete stdin read failure. -/
theorem failure_success_responses_witness :
    mainRun envAllOk parseIn (Except.error "broken pipe")
      = ⟨[⟨false, "", "Failed to read stdin: " ++ "broken pipe"⟩], 1⟩ :=
  (failure_success_responses envAllOk parseIn (Except.error "broken pipe")).1
    "broken pipe" rfl

/-! ### C3: the success response -/

/-- C3: when load, transform and save all succeed, `process_image`
answers exactly `{ok: true, out_path: resolved, msg: "Image processed
successfully"}` and the process exits with code 0. -/
theorem success_response (env : Env) (parse : String → Except String Json)
    (req : ProcessRequest) (s : String)
    (hopen : env.openOk req.path = Except.ok ())
    (hsave : env.saveOk (finalImg req) (resolveOutPath req) = Except.ok ())
    (hparse : fromStr parse s = Except.ok req) :
    processImage env req
        = Except.ok ⟨true, resolveOutPath req, "Image processed successfully"⟩
      ∧ mainRun env parse (Except.ok s)
        = ⟨[⟨true, resolveOutPath req, "Image processed successfully"⟩], 0⟩ := by
  have h1 : processImage env req
      = Except.ok ⟨true, resolveOutPath req, "Image processed successfully"⟩ := by
    simp [processImage, hopen, hsave]
  refine ⟨h1, ?_⟩
  simp [mainRun, hparse, h1]

/-- Witness for C3 at a concrete succeeding run. -/
theorem success_response_witness :
    processImage envAllOk reqIn
        = Except.ok ⟨true, resolveOutPath reqIn, "Image processed successfully"⟩
      ∧ mainRun envAllOk parseIn (Except.ok "")
        = ⟨[⟨true, resolveOutPath reqIn, "Image processed successfully"⟩], 0⟩
      ∧ resolveOutPath reqIn = "in_processed.png" := by
  have h := success_response envAllOk parseIn reqIn "" rfl rfl rfl
  exact ⟨h.1, h.2, by decide⟩

/-! ### C8: determinism -/

/-- C8: the pipeline is deterministic.  The run's outcome and the saved
artifact depend only on the request and on the behaviour of the
filesystem at the points the run touches: two runs over environments
that agree on opening the input and on saving the transformed image to
the resolved path produce identical responses and identical saved
content (the model has no clock and no randomness source, as the source
has none). -/
theorem pipeline_deterministic (e₁ e₂ : Env) (req : ProcessRequest)
    (hopen : e₁.openOk req.path = e₂.openOk req.path)
    (hsave : e₁.saveOk (finalImg req) (resolveOutPath req)
      = e₂.saveOk (finalImg req) (resolveOutPath req)) :
    processImage e₁ req = processImage e₂ req
      ∧ savedFile e₁ req = savedFile e₂ req := by
  have h1 : processImage e₁ req = processImage e₂ req := by
    simp only [processImage]
    rw [hopen]
    cases he : e₂.openOk req.path with
    | error c => rfl
    | ok u => rw [hsave]
  refine ⟨h1, ?_⟩
  simp only [savedFile]
  rw [h1]

/-- Witness for C8: two distinct environments agreeing at the touched
points give identical outcomes. -/
theorem pipeline_deterministic_witness :
    processImage envAllOk reqIn = processImage envB reqIn
      ∧ savedFile envAllOk reqIn = savedFile envB reqIn :=
  pipeline_deterministic envAllOk envB reqIn rfl rfl

/-! ### C7: error message contents (corrected) -/

/-- C7 counterexample: for an image-open failure, the emitted `msg` is
the `Display` of the `anyhow` context only — it names the path but does
NOT contain the underlying decode/IO cause text, contradicting the claim
that every top-level failure message includes the underlying cause. -/
theorem error_msg_cause_counterexample :
    mainRun envOpenFail parseTmp (Except.ok "")
        = ⟨[⟨false, "", "Processing failed: Failed to open image: /tmp/in.png"⟩], 1⟩
      ∧ containsSub "No such file or directory (os error 2)".data
          "Processing failed: Failed to open image: /tmp/in.png".data = false :=
  ⟨by decide, by decide⟩

/-- C7 (amended): stdin-read and request-decode failure messages include
the underlying cause text; open/save processing failures carry only the
outermost `with_context` text — which names the offending path — and the
underlying library cause is dropped by `Display`. -/
theorem error_msg_context (env : Env) (parse : String → Except String Json)
    (req : ProcessRequest) (s : String) :
    (∀ e, (mainRun env parse (Except.error e)).emitted
          = [⟨false, "", "Failed to read stdin: " ++ e⟩]
        ∧ containsSub e.data ("Failed to read stdin: " ++ e).data = true)
      ∧ (∀ e, fromStr parse s = Except.error e →
        (mainRun env parse (Except.ok s)).emitted
            = [⟨false, "", "Invalid request: " ++ e⟩]
          ∧ containsSub e.data ("Invalid request: " ++ e).data = true)
      ∧ (∀ cause, env.openOk req.path = Except.error cause →
        processImage env req
            = Except.error ⟨"Failed to open image: " ++ req.path, cause⟩
          ∧ containsSub req.path.data ("Failed to open image: " ++ req.path).data = true)
      ∧ (∀ cause, env.openOk req.path = Except.ok () →
        env.saveOk (finalImg req) (resolveOutPath req) = Except.error cause →
        processImage env req
          = Except.error ⟨"Failed to save image: " ++ resolveOutPath req, cause⟩)
      ∧ (∀ err, fromStr parse s = Except.ok req → processImage env req = Except.error err →
        (mainRun env parse (Except.ok s)).emitted
          = [⟨false, "", "Processing failed: " ++ err.context⟩]) := by
  refine ⟨?_, ?_, ?_, ?_, ?_⟩
  · intro e
    exact ⟨rfl, by rw [data_append]; exact containsSub_append_self _ _⟩
  · intro e hp
    constructor
    · simp [mainRun, hp]
    · rw [data_append]; exact containsSub_append_self _ _
  · intro cause hc
    constructor
    · simp [processImage, hc]
    · rw [data_append]; exact containsSub_append_self _ _
  · intro cause ho hs
    simp [processImage, ho, hs]
  · intro err hp hq
    simp [mainRun, hp, hq, AnyhowError.display]

/-- Witness for the amended C7: a concrete open failure carries the
path in its context. -/
theorem error_msg_context_witness :
    processImage envOpenFail ⟨"/tmp/in.png", none, none, none⟩
        = Except.error ⟨"Failed to open image: " ++ "/tmp/in.png",
            "No such file or directory (os error 2)"⟩
      ∧ containsSub "/tmp/in.png".data
          ("Failed to open image: " ++ "/tmp/in.png").data = true :=
  (error_msg_context envOpenFail parseTmp ⟨"/tmp/in.png", none, none, none⟩ "").2.2.1
    "No such file or directory (os error 2)" rfl

/-! ### C9: unknown fields are ignored -/

theorem decodeField_unknown (acc : RawReq) (k : String) (v : Json)
    (h : knownField k = false) : decodeField acc k v = Except.ok acc := by
  simp only [knownField, Bool.or_eq_false_iff, decide_eq_false_iff_not] at h
  obtain ⟨⟨⟨h1, h2⟩, h3⟩, h4⟩ := h
  unfold decodeField
  rw [if_neg h1, if_neg h2, if_neg h3, if_neg h4]

theorem decodeFields_unknown (l : List (String × Json)) (acc : RawReq)
    (h : ∀ kv ∈ l, knownField kv.1 = false) : decodeFields acc l = Except.ok acc := by
  induction l generalizing acc with
  | nil => rfl
  | cons kv rest ih =>
    obtain ⟨k, v⟩ := kv
    have hstep : decodeField acc k v = Except.ok acc :=
      decodeField_unknown acc k v (h _ (List.mem_cons_self _ _))
    simp only [decodeFields, hstep]
    exact ih acc (fun kv hkv => h kv (List.mem_cons_of_mem _ hkv))

theorem decodeFields_cons_ok (acc acc₂ : RawReq) (k : String) (v : Json)
    (rest : List (String × Json)) (h : decodeField acc k v = Except.ok acc₂) :
    decodeFields acc ((k, v) :: rest) = decodeFields acc₂ rest := by
  simp only [decodeFields, h]

theorem decodeFields_append_ok (l₁ l₂ : List (String × Json)) (acc acc₂ : RawReq)
    (h : decodeFields acc l₁ = Except.ok acc₂) :
    decodeFields acc (l₁ ++ l₂) = decodeFields acc₂ l₂ := by
  induction l₁ generalizing acc with
  | nil =>
    have ha : acc = acc₂ := by simpa [decodeFields] using h
    subst ha
    rfl
  | cons kv rest ih =>
    obtain ⟨k, v⟩ := kv
    cases hd : decodeField acc k v with
    | error e => simp [decodeFields, hd] at h
    | ok acc₃ =>
      simp only [List.cons_append, decodeFields, hd] at h ⊢
      exact ih acc₃ h

/-- C9: a JSON object holding `path` as a string, surrounded by any
unknown fields, decodes successfully; the unknown fields are silently
ignored and never cause a decode error. -/
theorem unknown_fields_ignored (pre post : List (String × Json)) (s : String)
    (hpre : ∀ kv ∈ pre, knownField kv.1 = false)
    (hpost : ∀ kv ∈ post, knownField kv.1 = false) :
    decodeProcessRequest (Json.obj (pre ++ ("path", Json.str s) :: post))
      = Except.ok ⟨s, none, none, none⟩ := by
  have h0 : decodeFields ⟨none, none, none, none⟩ pre
      = Except.ok ⟨none, none, none, none⟩ := decodeFields_unknown pre _ hpre
  have h1 : decodeField ⟨none, none, none, none⟩ "path" (Json.str s)
      = Except.ok ⟨some s, none, none, none⟩ := rfl
  have h2 : decodeFields ⟨none, none, none, none⟩ (pre ++ ("path", Json.str s) :: post)
      = Except.ok ⟨some s, none, none, none⟩ := by
    rw [decodeFields_append_ok pre _ _ _ h0,
        decodeFields_cons_ok _ _ _ _ _ h1,
        decodeFields_unknown post _ hpost]
  simp only [decodeProcessRequest]
  rw [h2]
  rfl

/-- Witness for C9 at a concrete object with two unknown fields. -/
theorem unknown_fields_ignored_witness :
    decodeProcessRequest (Json.obj
        [("extra", Json.bool true), ("path", Json.str "in.png"), ("note", Json.null)])
      = Except.ok ⟨"in.png", none, none, none⟩ :=
  unknown_fields_ignored [("extra", Json.bool true)] [("note", Json.null)] "in.png"
    (by decide) (by decide)

/-! ### C10: zero resize dimensions are accepted -/

theorem decodeU32_natCast (a : Nat) (h : a < 4294967296) :
    decodeU32 (Json.num (a : ℚ)) = Except.ok a := by
  have hden : ((a : ℚ)).den = 1 := Rat.den_natCast a
  have hnum : ((a : ℚ)).num = (a : ℤ) := Rat.num_natCast a
  show (if ((a : ℚ)).den = 1 ∧ 0 ≤ ((a : ℚ)).num ∧ ((a : ℚ)).num < 4294967296 then
      Except.ok ((a : ℚ)).num.toNat
    else Except.error "invalid value for u32") = Except.ok a
  rw [if_pos ⟨hden, by rw [hnum]; exact Int.natCast_nonneg a,
      by rw [hnum]; exact_mod_cast h⟩, hnum]
  simp

theorem decodeResize_pair (x y : Json) (a b : Nat)
    (hx : decodeU32 x = Except.ok a) (hy : decodeU32 y = Except.ok b) :
    decodeResize (Json.arr [x, y]) = Except.ok (some (a, b)) := by
  simp only [decodeResize]
  rw [hx, hy]

theorem decodeField_path_ok (acc : RawReq) (s : String) (hacc : acc.path? = none) :
    decodeField acc "path" (Json.str s)
      = Except.ok ⟨some s, acc.blur?, acc.resize?, acc.out?⟩ := by
  unfold decodeField
  rw [if_pos rfl, hacc]

theorem decodeField_resize_ok (acc : RawReq) (v : Json) (r : Option (Nat × Nat))
    (hacc : acc.resize? = none) (hv : decodeResize v = Except.ok r) :
    decodeField acc "resize" v
      = Except.ok ⟨acc.path?, acc.blur?, some r, acc.out?⟩ := by
  unfold decodeField
  rw [if_neg (by decide), if_neg (by decide), if_pos rfl, hacc, hv]

theorem decodeRequest_path_resize (p : String) (x y : Json) (a b : Nat)
    (hx : decodeU32 x = Except.ok a) (hy : decodeU32 y = Except.ok b) :
    decodeProcessRequest (Json.obj [("path", Json.str p), ("resize", Json.arr [x, y])])
      = Except.ok ⟨p, none, some (a, b), none⟩ := by
  have h1 : decodeField ⟨none, none, none, none⟩ "path" (Json.str p)
      = Except.ok ⟨some p, none, none, none⟩ := decodeField_path_ok _ p rfl
  have h2 : decodeField ⟨some p, none, none, none⟩ "resize" (Json.arr [x, y])
      = Except.ok ⟨some p, none, some (some (a, b)), none⟩ :=
    decodeField_resize_ok _ _ _ rfl (decodeResize_pair _ _ _ _ hx hy)
  simp only [decodeProcessRequest]
  rw [decodeFields_cons_ok _ _ _ _ _ h1, decodeFields_cons_ok _ _ _ _ _ h2]
  rfl

/-- C10: any pair of non-negative integers below `2^32` decodes as a
`resize` value — zero included — and `process_image` applies the resize
step without validating the dimensions: a `resize = (0, 0)` request is
never rejected as a decode or request error. -/
theorem resize_zero_accepted (a b : Nat) (p : String)
    (ha : a < 4294967296) (hb : b < 4294967296) :
    decodeProcessRequest (Json.obj
        [("path", Json.str p), ("resize", Json.arr [Json.num (a : ℚ), Json.num (b : ℚ)])])
      = Except.ok ⟨p, none, some (a, b), none⟩
      ∧ (∀ req : ProcessRequest, req.resize = some (a, b) →
        finalImg req
          = blurStep req (Img.resizeExact a b FilterType.Lanczos3 (Img.source req.path)))
      ∧ (∀ (env : Env) (req : ProcessRequest), req.resize = some (a, b) →
        env.openOk req.path = Except.ok () →
        env.saveOk (finalImg req) (resolveOutPath req) = Except.ok () →
        processImage env req
          = Except.ok ⟨true, resolveOutPath req, "Image processed successfully"⟩) := by
  refine ⟨?_, ?_, ?_⟩
  · exact decodeRequest_path_resize p _ _ a b (decodeU32_natCast a ha) (decodeU32_natCast b hb)
  · intro req h
    simp [finalImg, resizeStep, h]
  · intro env req h hopen hsave
    simp [processImage, hopen, hsave]

/-- Witness for C10 at `resize = [0, 0]`. -/
theorem resize_zero_accepted_witness :
    decodeProcessRequest (Json.obj
        [("path", Json.str "shot.png"),
          ("resize", Json.arr [Json.num ((0 : Nat) : ℚ), Json.num ((0 : Nat) : ℚ)])])
      = Except.ok ⟨"shot.png", none, some (0, 0), none⟩
      ∧ processImage envAllOk ⟨"shot.png", none, some (0, 0), none⟩
        = Except.ok ⟨true, resolveOutPath ⟨"shot.png", none, some (0, 0), none⟩,
            "Image processed successfully"⟩
      ∧ resolveOutPath ⟨"shot.png", none, some (0, 0), none⟩ = "shot_processed.png" := by
  have h := resize_zero_accepted 0 0 "shot.png" (by decide) (by decide)
  exact ⟨h.1, h.2.2 envAllOk ⟨"shot.png", none, some (0, 0), none⟩ rfl rfl rfl, by decide⟩

/-! ### C1: output path resolution

The development below establishes, for the derived output path, that the
replacement name is installed as the file name of a sibling path: when
the input has a determinable file name, the result of `set_file_name`
has the new name as its file name and the same parent prefix as the
input. -/

theorem splitChunks_ne_nil (l : List Char) : splitChunks l ≠ [] := by
  induction l with
  | nil => simp [splitChunks]
  | cons c rest ih =>
    by_cases hc : c = '/'
    · simp [splitChunks, hc]
    · cases hs : splitChunks rest with
      | nil => exact absurd hs ih
      | cons s ss => simp [splitChunks, hc, hs]

theorem mem_splitChunks_no_sep (l : List Char) :
    ∀ c ∈ splitChunks l, '/' ∉ c := by
  induction l with
  | nil =>
    intro c hc
    simp [splitChunks] at hc
    simp [hc]
  | cons a rest ih =>
    intro c hc
    by_cases ha : a = '/'
    · simp only [splitChunks, if_pos ha] at hc
      rcases List.mem_cons.mp hc with hc | hc
      · simp [hc]
      · exact ih c hc
    · cases hs : splitChunks rest with
      | nil => exact absurd hs (splitChunks_ne_nil rest)
      | cons s ss =>
        have hsmem : s ∈ splitChunks rest := by
          rw [hs]; exact List.mem_cons_self s ss
        simp only [splitChunks, if_neg ha, hs] at hc
        rcases List.mem_cons.mp hc with hc | hc
        · subst hc
          intro hsep
          rcases List.mem_cons.mp hsep with h1 | h1
          · exact ha h1.symm
          · exact ih s hsmem h1
        · have : c ∈ splitChunks rest := by
            rw [hs]; exact List.mem_cons_of_mem s hc
          exact ih c this

theorem splitChunks_sep_append (a b : List Char) :
    splitChunks (a ++ '/' :: b) = splitChunks a ++ splitChunks b := by
  induction a with
  | nil => simp [splitChunks]
  | cons c a' ih =>
    by_cases hc : c = '/'
    · simp [splitChunks, hc, ih]
    · cases hs : splitChunks a' with
      | nil => exact absurd hs (splitChunks_ne_nil a')
      | cons s ss => simp [splitChunks, hc, ih, hs]

theorem splitChunks_of_no_sep (l : List Char) (h : '/' ∉ l) : splitChunks l = [l] := by
  induction l with
  | nil => rfl
  | cons c rest ih =>
    have hc : ¬ c = '/' := fun hEq => h (hEq ▸ List.mem_cons_self c rest)
    have hrest : '/' ∉ rest := fun hmem => h (List.mem_cons_of_mem c hmem)
    simp [splitChunks, hc, ih hrest]

theorem splitChunks_joinChunks (L : List (List Char)) (hne : L ≠ [])
    (hsep : ∀ c ∈ L, '/' ∉ c) : splitChunks (joinChunks L) = L := by
  induction L with
  | nil => exact absurd rfl hne
  | cons c L' ih =>
    cases L' with
    | nil => exact splitChunks_of_no_sep c (hsep c (List.mem_cons_self c []))
    | cons d rest =>
      have hjoin : joinChunks (c :: d :: rest) = c ++ '/' :: joinChunks (d :: rest) := rfl
      rw [hjoin, splitChunks_sep_append,
        splitChunks_of_no_sep c (hsep c (List.mem_cons_self c _)),
        ih (by simp) (fun x hx => hsep x (List.mem_cons_of_mem c hx))]
      rfl

theorem joinChunks_cons_of_ne_nil (a : List Char) (X : List (List Char)) (h : X ≠ []) :
    joinChunks (a :: X) = a ++ '/' :: joinChunks X := by
  cases X with
  | nil => exact absurd rfl h
  | cons d rest => rfl

theorem joinChunks_concat_ne_nil (A : List (List Char)) (c : List Char) (hc : c ≠ []) :
    joinChunks (A ++ [c]) ≠ [] := by
  induction A with
  | nil => exact hc
  | cons a A' ih =>
    rw [List.cons_append, joinChunks_cons_of_ne_nil a (A' ++ [c]) (by simp)]
    simp

theorem getLast?_mem_of_eq (l : List Char) (a : Char) (h : l.getLast? = some a) : a ∈ l := by
  induction l with
  | nil => cases h
  | cons c t ih =>
    cases t with
    | nil =>
      have : c = a := by
        have h' : some c = some a := h
        injection h'
      simp [this]
    | cons d t' =>
      have h' : (d :: t').getLast? = some a := h
      exact List.mem_cons_of_mem _ (ih h')

theorem getLast?_isSome_of_ne_nil : ∀ (c : List Char), c ≠ [] → ∃ x, c.getLast? = some x
  | [], h => absurd rfl h
  | [a], _ => ⟨a, rfl⟩
  | a :: b :: t, _ => by
    obtain ⟨x, hx⟩ := getLast?_isSome_of_ne_nil (b :: t) (by simp)
    exact ⟨x, by rw [List.getLast?_cons_cons]; exact hx⟩

theorem getLast?_joinChunks_concat (A : List (List Char)) (c : List Char) (hc : c ≠ []) :
    (joinChunks (A ++ [c])).getLast? = c.getLast? := by
  obtain ⟨x, hx⟩ := getLast?_isSome_of_ne_nil c hc
  induction A with
  | nil => rfl
  | cons a A' ih =>
    rw [List.cons_append, joinChunks_cons_of_ne_nil a (A' ++ [c]) (by simp),
      List.getLast?_append]
    have hsplit : ('/' :: joinChunks (A' ++ [c])) = ['/'] ++ joinChunks (A' ++ [c]) := rfl
    rw [hsplit, List.getLast?_append, ih, hx]
    rfl

theorem trimBackRev_keep (c : List Char) (rest : List (List Char))
    (h : ¬(c = [] ∨ (c = ['.'] ∧ rest ≠ []))) :
    trimBackRev (c :: rest) = c :: rest := by
  simp only [trimBackRev, if_neg h]

theorem trimBackRev_drop (c : List Char) (rest : List (List Char))
    (h : c = [] ∨ (c = ['.'] ∧ rest ≠ [])) :
    trimBackRev (c :: rest) = trimBackRev rest := by
  simp only [trimBackRev, if_pos h]

theorem trimBackRev_suffix (l : List (List Char)) : trimBackRev l <:+ l := by
  induction l with
  | nil => exact List.suffix_refl []
  | cons c rest ih =>
    by_cases hcond : c = [] ∨ (c = ['.'] ∧ rest ≠ [])
    · rw [trimBackRev_drop c rest hcond]
      exact ih.trans (List.suffix_cons c rest)
    · rw [trimBackRev_keep c rest hcond]

theorem trimBackRev_eq_cons (l : List (List Char)) (c : List Char) (cs : List (List Char))
    (h : trimBackRev l = c :: cs) :
    c ≠ [] ∧ (c = ['.'] → cs = []) ∧ trimBackRev (c :: cs) = c :: cs := by
  induction l with
  | nil => simp [trimBackRev] at h
  | cons a rest ih =>
    by_cases hcond : a = [] ∨ (a = ['.'] ∧ rest ≠ [])
    · rw [trimBackRev_drop a rest hcond] at h
      exact ih h
    · rw [trimBackRev_keep a rest hcond] at h
      injection h with h1 h2
      subst h1; subst h2
      have hcond2 := hcond
      push_neg at hcond2
      exact ⟨hcond2.1, hcond2.2, trimBackRev_keep a rest hcond⟩

theorem trimBackRev_of_all_empty (l : List (List Char)) (h : ∀ c ∈ l, c = []) :
    trimBackRev l = [] := by
  induction l with
  | nil => rfl
  | cons c rest ih =>
    have hc : c = [] := h c (List.mem_cons_self c rest)
    rw [trimBackRev_drop c rest (Or.inl hc)]
    exact ih (fun x hx => h x (List.mem_cons_of_mem c hx))

theorem splitChunks_replicate_sep (k : Nat) (b : List Char) (hb : '/' ∉ b) :
    splitChunks (List.replicate k '/' ++ b) = List.replicate k [] ++ [b] := by
  induction k with
  | zero => simpa using splitChunks_of_no_sep b hb
  | succ k ih => simp [List.replicate_succ, splitChunks, ih]

theorem rootRun_eq_replicate (l : List Char) :
    rootRun l = List.replicate (rootRun l).length '/' := by
  apply List.eq_replicate_of_mem
  intro x hx
  have := List.mem_takeWhile_imp hx
  exact of_decide_eq_true this

theorem rootRun_append (k : Nat) (n : List Char) (hn : '/' ∉ n) :
    rootRun (List.replicate k '/' ++ n) = List.replicate k '/' := by
  induction k with
  | zero =>
    cases n with
    | nil => rfl
    | cons c t =>
      have hc : ¬ c = '/' := fun hEq => hn (hEq ▸ List.mem_cons_self c t)
      simp [rootRun, List.takeWhile_cons, hc]
  | succ k ih => simp [List.replicate_succ, rootRun, List.takeWhile_cons] at ih ⊢; exact ih

theorem fileNameL_eq_of_trim (l : List Char) (c : List Char) (cs : List (List Char))
    (h : trimBackRev (splitChunks l).reverse = c :: cs)
    (hdot : c ≠ ['.']) (hdd : c ≠ ['.', '.']) :
    fileNameL l = some c := by
  have hif : ¬(c = ['.'] ∨ c = ['.', '.']) := by
    intro hor
    rcases hor with hor | hor
    · exact hdot hor
    · exact hdd hor
  simp only [fileNameL, h, if_neg hif]

theorem parentL_eq_root (l : List Char) (m : List Char) (rest : List (List Char))
    (h : trimBackRev (splitChunks l).reverse = m :: rest)
    (h2 : trimBackRev rest = []) :
    parentL l = some (rootRun l) := by
  simp only [parentL, h, h2]

theorem parentL_eq_join (l : List Char) (m c : List Char) (rest cs : List (List Char))
    (h : trimBackRev (splitChunks l).reverse = m :: rest)
    (h2 : trimBackRev rest = c :: cs) :
    parentL l = some (joinChunks (c :: cs).reverse) := by
  simp only [parentL, h, h2]

theorem head?_ne_sep (n : List Char) (hne : n ≠ []) (hsep : '/' ∉ n) :
    n.head? ≠ some '/' := by
  cases n with
  | nil => exact absurd rfl hne
  | cons c t =>
    intro hEq
    have hc : c = '/' := by injection hEq
    exact hsep (hc ▸ List.mem_cons_self c t)

/-- Installing a normal name after a root-only (or empty) parent: the
result has the name as its file name and the same root as its parent. -/
theorem setName_root (k : Nat) (n : List Char)
    (hne : n ≠ []) (hsep : '/' ∉ n) (hdot : n ≠ ['.']) (hdd : n ≠ ['.', '.']) :
    fileNameL (pushNameL (List.replicate k '/') n) = some n
      ∧ parentL (pushNameL (List.replicate k '/') n) = some (List.replicate k '/') := by
  have hnhead := head?_ne_sep n hne hsep
  have hpush : pushNameL (List.replicate k '/') n = List.replicate k '/' ++ n := by
    cases k with
    | zero => simp [pushNameL, hnhead]
    | succ k =>
      have hplast : (List.replicate (k + 1) '/').getLast? = some '/' := by
        rw [List.replicate_succ']
        exact List.getLast?_concat _
      have hne2 : List.replicate (k + 1) '/' ≠ [] := by simp
      simp [pushNameL, hnhead, hplast, hne2]
  have hchunks : splitChunks (List.replicate k '/' ++ n)
      = List.replicate k [] ++ [n] := splitChunks_replicate_sep k n hsep
  have hrev : (List.replicate k ([] : List Char) ++ [n]).reverse
      = n :: List.replicate k [] := by
    rw [List.reverse_append, List.reverse_replicate]
    rfl
  have hkeepcond : ¬(n = [] ∨ (n = ['.'] ∧ List.replicate k ([] : List Char) ≠ [])) := by
    intro hor
    rcases hor with hor | hor
    · exact hne hor
    · exact hdot hor.1
  have htrim : trimBackRev (splitChunks (pushNameL (List.replicate k '/') n)).reverse
      = n :: List.replicate k [] := by
    rw [hpush, hchunks, hrev]
    exact trimBackRev_keep n _ hkeepcond
  constructor
  · exact fileNameL_eq_of_trim _ n _ htrim hdot hdd
  · have h2 : trimBackRev (List.replicate k ([] : List Char)) = [] :=
      trimBackRev_of_all_empty _ (fun c hc => List.eq_of_mem_replicate hc)
    rw [parentL_eq_root _ n _ htrim h2, hpush, rootRun_append k n hsep]

/-- Installing a normal name after a component-ending parent: the result
has the name as its file name and the same parent prefix. -/
theorem setName_join (c : List Char) (cs : List (List Char)) (n : List Char)
    (hne : n ≠ []) (hsep : '/' ∉ n) (hdot : n ≠ ['.']) (hdd : n ≠ ['.', '.'])
    (hc : c ≠ []) (hfix : trimBackRev (c :: cs) = c :: cs)
    (hall : ∀ x ∈ c :: cs, '/' ∉ x) :
    fileNameL (pushNameL (joinChunks (c :: cs).reverse) n) = some n
      ∧ parentL (pushNameL (joinChunks (c :: cs).reverse) n)
        = some (joinChunks (c :: cs).reverse) := by
  have hnhead := head?_ne_sep n hne hsep
  have hrevcc : (c :: cs).reverse = cs.reverse ++ [c] := by simp
  have hparne : joinChunks ((c :: cs).reverse) ≠ [] := by
    rw [hrevcc]
    exact joinChunks_concat_ne_nil cs.reverse c hc
  have hlastne : (joinChunks ((c :: cs).reverse)).getLast? ≠ some '/' := by
    rw [hrevcc, getLast?_joinChunks_concat cs.reverse c hc]
    intro hEq
    exact hall c (List.mem_cons_self c cs) (getLast?_mem_of_eq c '/' hEq)
  have hpush : pushNameL (joinChunks ((c :: cs).reverse)) n
      = joinChunks ((c :: cs).reverse) ++ '/' :: n := by
    simp only [pushNameL, if_neg hnhead, if_neg hparne, if_neg hlastne]
  have hjoinsplit : splitChunks (joinChunks ((c :: cs).reverse)) = (c :: cs).reverse :=
    splitChunks_joinChunks _ (by simp)
      (fun x hx => hall x (List.mem_reverse.mp hx))
  have hchunks : splitChunks (joinChunks ((c :: cs).reverse) ++ '/' :: n)
      = (c :: cs).reverse ++ [n] := by
    rw [splitChunks_sep_append, hjoinsplit, splitChunks_of_no_sep n hsep]
  have hrev2 : ((c :: cs).reverse ++ [n]).reverse = n :: c :: cs := by simp
  have hkeepcond : ¬(n = [] ∨ (n = ['.'] ∧ (c :: cs) ≠ [])) := by
    intro hor
    rcases hor with hor | hor
    · exact hne hor
    · exact hdot hor.1
  have htrim : trimBackRev (splitChunks (pushNameL (joinChunks ((c :: cs).reverse)) n)).reverse
      = n :: c :: cs := by
    rw [hpush, hchunks, hrev2]
    exact trimBackRev_keep n _ hkeepcond
  constructor
  · exact fileNameL_eq_of_trim _ n _ htrim hdot hdd
  · exact parentL_eq_join _ n c _ cs htrim hfix

/-- `set_file_name` with a normal replacement name, on a path that has a
file name: the result's file name is the new name and its parent prefix
is unchanged — it denotes a sibling of the input. -/
theorem setFileNameL_parent (l n : List Char)
    (hne : n ≠ []) (hsep : '/' ∉ n) (hdot : n ≠ ['.']) (hdd : n ≠ ['.', '.'])
    (m : List Char) (hm : fileNameL l = some m) :
    fileNameL (setFileNameL l n) = some n
      ∧ parentL (setFileNameL l n) = parentL l := by
  cases htr : trimBackRev (splitChunks l).reverse with
  | nil =>
    rw [fileNameL, htr] at hm
    cases hm
  | cons m₀ rest =>
    cases hre : trimBackRev rest with
    | nil =>
      have hroot : parentL l = some (rootRun l) := parentL_eq_root l m₀ rest htr hre
      have hpush : setFileNameL l n = pushNameL (rootRun l) n := by
        simp only [setFileNameL, hm, hroot]
      have hrep := rootRun_eq_replicate l
      have hk := setName_root (rootRun l).length n hne hsep hdot hdd
      constructor
      · rw [hpush, hrep]
        exact hk.1
      · rw [hpush, hroot, hrep]
        exact hk.2
    | cons c cs =>
      obtain ⟨hc, -, hfix⟩ := trimBackRev_eq_cons rest c cs hre
      have hall : ∀ x ∈ c :: cs, '/' ∉ x := by
        intro x hx
        have hx1 : x ∈ rest := (hre ▸ (trimBackRev_suffix rest).subset) hx
        have hx2 : x ∈ (splitChunks l).reverse :=
          (htr ▸ (trimBackRev_suffix (splitChunks l).reverse).subset)
            (List.mem_cons_of_mem m₀ hx1)
        exact mem_splitChunks_no_sep l x (List.mem_reverse.mp hx2)
      have hjoin : parentL l = some (joinChunks ((c :: cs).reverse)) :=
        parentL_eq_join l m₀ c rest cs htr hre
      have hpush : setFileNameL l n = pushNameL (joinChunks ((c :: cs).reverse)) n := by
        simp only [setFileNameL, hm, hjoin]
      have hk := setName_join c cs n hne hsep hdot hdd hc hfix hall
      constructor
      · rw [hpush]
        exact hk.1
      · rw [hpush, hjoin]
        exact hk.2

theorem lastDotSplit_eq (l : List Char) (b a : List Char)
    (h : lastDotSplit l = some (b, a)) : l = b ++ '.' :: a := by
  induction l generalizing b a with
  | nil => cases h
  | cons c rest ih =>
    cases hr : lastDotSplit rest with
    | some ba =>
      obtain ⟨b2, a2⟩ := ba
      have hstep : lastDotSplit (c :: rest) = some (c :: b2, a2) := by
        simp only [lastDotSplit, hr]
      rw [hstep] at h
      injection h with h1
      injection h1 with hb ha
      subst hb; subst ha
      rw [List.cons_append]
      rw [← ih b2 a2 hr]
    | none =>
      have hstep : lastDotSplit (c :: rest)
          = if c = '.' then some ([], rest) else none := by
        simp only [lastDotSplit, hr]
      rw [hstep] at h
      by_cases hcc : c = '.'
      · rw [if_pos hcc] at h
        injection h with h1
        injection h1 with hb ha
        subst hb; subst ha
        rw [hcc]
        rfl
      · rw [if_neg hcc] at h
        cases h

theorem fileNameL_of_trim_cases (l c : List Char) (cs : List (List Char))
    (htr : trimBackRev (splitChunks l).reverse = c :: cs) :
    fileNameL l = if c = ['.'] ∨ c = ['.', '.'] then none else some c := by
  simp only [fileNameL, htr]

theorem fileNameL_no_sep (l n : List Char) (h : fileNameL l = some n) : '/' ∉ n := by
  cases htr : trimBackRev (splitChunks l).reverse with
  | nil =>
    rw [fileNameL, htr] at h
    cases h
  | cons c cs =>
    rw [fileNameL_of_trim_cases l c cs htr] at h
    by_cases hif : c = ['.'] ∨ c = ['.', '.']
    · rw [if_pos hif] at h
      cases h
    · rw [if_neg hif] at h
      injection h with h1
      subst h1
      have hmem : c ∈ (splitChunks l).reverse :=
        (htr ▸ (trimBackRev_suffix (splitChunks l).reverse).subset)
          (List.mem_cons_self c cs)
      exact mem_splitChunks_no_sep l c (List.mem_reverse.mp hmem)

theorem stemOfName_no_sep (n : List Char) (h : '/' ∉ n) : '/' ∉ stemOfName n := by
  by_cases hdd : n = ['.', '.']
  · rw [stemOfName, if_pos hdd]
    exact h
  · rw [stemOfName, if_neg hdd]
    cases hd : lastDotSplit n with
    | none => exact h
    | some ba =>
      obtain ⟨b, a⟩ := ba
      cases b with
      | nil => exact h
      | cons c bb =>
        show '/' ∉ c :: bb
        intro hmem
        have hn := lastDotSplit_eq n (c :: bb) a hd
        exact h (by rw [hn]; exact List.mem_append_left _ hmem)

theorem extOfName_no_sep (n a : List Char) (h : '/' ∉ n)
    (ha : extOfName n = some a) : '/' ∉ a := by
  by_cases hdd : n = ['.', '.']
  · rw [extOfName, if_pos hdd] at ha
    cases ha
  · rw [extOfName, if_neg hdd] at ha
    cases hd : lastDotSplit n with
    | none => rw [hd] at ha; cases ha
    | some ba =>
      obtain ⟨b, ax⟩ := ba
      cases b with
      | nil => rw [hd] at ha; cases ha
      | cons c bb =>
        rw [hd] at ha
        have hax : ax = a := by injection ha
        subst hax
        intro hmem
        have hn := lastDotSplit_eq n (c :: bb) ax hd
        exact h (by
          rw [hn]
          exact List.mem_append_right _ (List.mem_cons_of_mem '.' hmem))

theorem processedNameL_no_sep (l : List Char) : '/' ∉ processedNameL l := by
  have hstem : '/' ∉ (fileStemL l).getD "screenshot".data := by
    cases hf : fileNameL l with
    | none =>
      have : fileStemL l = none := by simp [fileStemL, hf]
      rw [this]
      decide
    | some n =>
      have : fileStemL l = some (stemOfName n) := by simp [fileStemL, hf]
      rw [this]
      exact stemOfName_no_sep n (fileNameL_no_sep l n hf)
  have hext : '/' ∉ (extensionL l).getD "png".data := by
    cases hf : fileNameL l with
    | none =>
      have : extensionL l = none := by simp [extensionL, hf]
      rw [this]
      decide
    | some n =>
      cases he : extOfName n with
      | none =>
        have : extensionL l = none := by simp [extensionL, hf, he]
        rw [this]
        decide
      | some a =>
        have : extensionL l = some a := by simp [extensionL, hf, he]
        rw [this]
        exact extOfName_no_sep n a (fileNameL_no_sep l n hf) he
  have hmid : '/' ∉ "_processed.".data := by decide
  intro hmem
  rw [processedNameL] at hmem
  rcases List.mem_append.mp hmem with hmem | hmem
  · rcases List.mem_append.mp hmem with hmem | hmem
    · exact hstem hmem
    · exact hmid hmem
  · exact hext hmem

theorem processedNameL_length (l : List Char) : 11 ≤ (processedNameL l).length := by
  rw [processedNameL, List.length_append, List.length_append]
  have hmid : ("_processed.".data).length = 11 := by decide
  omega

/-- C1: the resolved output path is the explicit `out_path` verbatim
when provided; otherwise the input path with its file name replaced by
`"{stem}_processed.{ext}"` (stem defaulting to `"screenshot"`, extension
to `"png"`), and — whenever the input has a determinable file name — the
result is a sibling of the input: its file name is exactly the derived
name and its parent prefix equals the input's parent prefix. -/
theorem out_path_resolution (req : ProcessRequest) :
    (∀ p, req.out_path = some p → resolveOutPath req = p)
      ∧ (req.out_path = none →
        (resolveOutPath req).data
            = setFileNameL req.path.data (processedNameL req.path.data)
          ∧ ∀ n, fileNameL req.path.data = some n →
            fileNameL (resolveOutPath req).data = some (processedNameL req.path.data)
              ∧ parentL (resolveOutPath req).data = parentL req.path.data) := by
  constructor
  · intro p hp
    simp [resolveOutPath, hp]
  · intro hnone
    have hres : (resolveOutPath req).data
        = setFileNameL req.path.data (processedNameL req.path.data) := by
      simp [resolveOutPath, hnone]
    refine ⟨hres, ?_⟩
    intro n hn
    have h11 := processedNameL_length req.path.data
    have hne : processedNameL req.path.data ≠ [] := by
      intro hEq
      rw [hEq] at h11
      have : ([] : List Char).length = 0 := rfl
      omega
    have hdot : processedNameL req.path.data ≠ ['.'] := by
      intro hEq
      rw [hEq] at h11
      have : (['.'] : List Char).length = 1 := rfl
      omega
    have hdd : processedNameL req.path.data ≠ ['.', '.'] := by
      intro hEq
      rw [hEq] at h11
      have : (['.', '.'] : List Char).length = 2 := rfl
      omega
    have hmain := setFileNameL_parent req.path.data (processedNameL req.path.data)
      hne (processedNameL_no_sep req.path.data) hdot hdd n hn
    rw [hres]
    exact hmain

/-- Witness for C1: an explicit `out_path` is used verbatim, and the
derived path for `shot.png` is its sibling `shot_processed.png`. -/
theorem out_path_resolution_witness :
    resolveOutPath ⟨"in.png", none, none, some "/x/y.png"⟩ = "/x/y.png"
      ∧ fileNameL (resolveOutPath ⟨"shot.png", none, none, none⟩).data
          = some (processedNameL "shot.png".data)
      ∧ parentL (resolveOutPath ⟨"shot.png", none, none, none⟩).data
          = parentL "shot.png".data
      ∧ resolveOutPath ⟨"shot.png", none, none, none⟩ = "shot_processed.png" := by
  have h := (out_path_resolution ⟨"shot.png", none, none, none⟩).2 rfl
  have h2 := h.2 "shot.png".data (by decide)
  exact ⟨(out_path_resolution ⟨"in.png", none, none, some "/x/y.png"⟩).1 _ rfl,
    h2.1, h2.2, by decide⟩

end Screencap
